import Mathlib

/-!
Verification of the NeRF implementation (`nerf-implementation.ipynb`):
a shallow embedding of its positional encoding, scene network, stratified
ray sampler, volume-rendering compositor, chunked test renderer and
training loop, with theorems settling the specification's claims.
Tensor rows are modelled as `List ℝ`; the batch dimension is a `List` of
rows; machine floats are modelled as real numbers.
-/

set_option maxHeartbeats 1000000

noncomputable section

namespace Nerf

/-! ## Definitions -/

/-! ### Positional encoding (`NerfModel.positional_encoding`)

`out = [x]; for j in range(L): out.append(sin(2**j * x)); out.append(cos(2**j * x));
return torch.cat(out, dim=1)`, modelled per row. -/

def positional_encoding (x : List ℝ) (L : ℕ) : List ℝ :=
  List.flatten (x :: (List.range L).flatMap (fun j =>
    [x.map (fun a => Real.sin (2 ^ j * a)), x.map (fun a => Real.cos (2 ^ j * a))]))

/-! ### Scene network (`NerfModel`)

A fully connected layer `nn.Linear` is a weight matrix (list of rows) and a
bias vector; `apply` is `W x + b`. -/

structure Linear where
  weight : List (List ℝ)
  bias : List ℝ

def Linear.apply (l : Linear) (x : List ℝ) : List ℝ :=
  List.zipWith (fun row b => (List.zipWith (fun w v => w * v) row x).sum + b) l.weight l.bias

def reluL (x : List ℝ) : List ℝ := x.map (fun a => max a 0)

def sigmoid (a : ℝ) : ℝ := 1 / (1 + Real.exp (-a))

def sigmoidL (x : List ℝ) : List ℝ := x.map sigmoid

/-- The `NerfModel` parameters: `block1` and `block2` are four `Linear`
layers each, `block3` and `block4` one `Linear` layer each, plus the two
positional-encoding frequency counts. -/
structure NerfModel where
  b1l1 : Linear
  b1l2 : Linear
  b1l3 : Linear
  b1l4 : Linear
  b2l1 : Linear
  b2l2 : Linear
  b2l3 : Linear
  b2l4 : Linear
  b3l1 : Linear
  b4l1 : Linear
  posEncCoord_dim : ℕ
  posEncDirection_dim : ℕ

/-- `block1`: `Linear; ReLU; Linear; ReLU; Linear; ReLU; Linear; ReLU`. -/
def NerfModel.block1 (m : NerfModel) (x : List ℝ) : List ℝ :=
  reluL (m.b1l4.apply (reluL (m.b1l3.apply (reluL (m.b1l2.apply (reluL (m.b1l1.apply x)))))))

/-- `block2`: `Linear; ReLU; Linear; ReLU; Linear; ReLU; Linear` (no final ReLU). -/
def NerfModel.block2 (m : NerfModel) (x : List ℝ) : List ℝ :=
  m.b2l4.apply (reluL (m.b2l3.apply (reluL (m.b2l2.apply (reluL (m.b2l1.apply x))))))

/-- `block3`: `Linear; ReLU`. -/
def NerfModel.block3 (m : NerfModel) (x : List ℝ) : List ℝ :=
  reluL (m.b3l1.apply x)

/-- `block4`: `Linear; Sigmoid`. -/
def NerfModel.block4 (m : NerfModel) (x : List ℝ) : List ℝ :=
  sigmoidL (m.b4l1.apply x)

/-- `NerfModel.forward` on one sample row:
`emb_x = positional_encoding(o, Lp); emb_d = positional_encoding(d, Ld);
features = block1(emb_x); tmp = block2(cat(features, emb_x));
features, sigma = tmp[:-1], relu(tmp[-1]);
features = block3(cat(features, emb_d)); c = block4(features); return c, sigma`. -/
def NerfModel.forward (m : NerfModel) (o d : List ℝ) : List ℝ × ℝ :=
  let emb_x := positional_encoding o m.posEncCoord_dim
  let emb_d := positional_encoding d m.posEncDirection_dim
  let features := m.block1 emb_x
  let tmp := m.block2 (features ++ emb_x)
  let sigma := max (tmp.getLast?.getD 0) 0
  let features2 := m.block3 (tmp.dropLast ++ emb_d)
  let c := m.block4 features2
  (c, sigma)

/-- Batched forward: the network is applied row-wise to paired
position/direction rows (model of the batch dimension). -/
def NerfModel.forwardBatch (m : NerfModel) (os ds : List (List ℝ)) :
    List (List ℝ) × List ℝ :=
  ((os.zip ds).map (fun p => (m.forward p.1 p.2).1),
   (os.zip ds).map (fun p => (m.forward p.1 p.2).2))

/-- A concrete parameter assignment, used to evaluate the theorems at a point. -/
def trivialModel : NerfModel :=
  ⟨⟨[], []⟩, ⟨[], []⟩, ⟨[], []⟩, ⟨[], []⟩, ⟨[], []⟩, ⟨[], []⟩, ⟨[], []⟩, ⟨[], []⟩,
   ⟨[], []⟩, ⟨[], []⟩, 10, 4⟩

/-! ### Volume-rendering compositor (`compute_accumulated_transmittance`, tail of `render_rays`) -/

/-- `torch.cumprod(·, 1)` along one row: running products. -/
def cumprod : List ℝ → List ℝ
  | [] => []
  | a :: as => a :: (cumprod as).map (fun b => a * b)

/-- `compute_accumulated_transmittance`: `cat((ones, cumprod(alphas)[:, :-1]), -1)`. -/
def compute_accumulated_transmittance (alphas : List ℝ) : List ℝ :=
  1 :: (cumprod alphas).dropLast

/-- `alpha = 1 - exp(-sigma * delta)`, elementwise along one ray. -/
def render_alphas (sigma delta : List ℝ) : List ℝ :=
  List.zipWith (fun s dl => 1 - Real.exp (-(s * dl))) sigma delta

/-- `weights = compute_accumulated_transmittance(1 - alpha) * alpha` along one ray. -/
def render_weights (sigma delta : List ℝ) : List ℝ :=
  List.zipWith (fun tr a => tr * a)
    (compute_accumulated_transmittance ((render_alphas sigma delta).map (fun a => 1 - a)))
    (render_alphas sigma delta)

/-- `weights.sum(-1).sum(-1)` for one ray: the accumulated opacity. -/
def weight_sum (sigma delta : List ℝ) : ℝ := (render_weights sigma delta).sum

/-- `(weights * colors).sum(dim=1)` for one ray: elementwise sum over samples of
3-channel rows. -/
def vsum3 (l : List (List ℝ)) : List ℝ :=
  l.foldr (fun a b => List.zipWith (fun p q => p + q) a b) [0, 0, 0]

/-- The compositor tail of `render_rays` for one ray:
`c = (weights * colors).sum(dim=1); return c + 1 - weight_sum`. -/
def composite (sigma delta : List ℝ) (colors : List (List ℝ)) : List ℝ :=
  (vsum3 (List.zipWith (fun w ci => ci.map (fun x => w * x))
      (render_weights sigma delta) colors)).map
    (fun x => x + 1 - weight_sum sigma delta)

/-! ### Stratified ray sampler (head of `render_rays`) -/

/-- Base depth `i` of `torch.linspace(hn, hf, n)`:
`hn + (hf - hn) * i / (n - 1)`. -/
def lins (hn hf : ℝ) (n i : ℕ) : ℝ := hn + (hf - hn) * i / ((n : ℝ) - 1)

/-- `torch.linspace(hn, hf, n)` for one ray. -/
def linspace (hn hf : ℝ) (n : ℕ) : List ℝ :=
  List.ofFn (fun i : Fin n => lins hn hf n i)

/-- The jittered stratified depths of `render_rays` for one ray:
`mid = (t[:, :-1] + t[:, 1:]) / 2; lower = cat(t[:, :1], mid);
upper = cat(mid, t[:, -1:]); u = rand(...); t = lower + (upper - lower) * u`. -/
def raySample (hn hf : ℝ) (n : ℕ) (u : List ℝ) : List ℝ :=
  let t := linspace hn hf n
  let mid := List.zipWith (fun a b => (a + b) / 2) t.dropLast t.tail
  let lower := t.take 1 ++ mid
  let upper := mid ++ t.drop (t.length - 1)
  List.zipWith (fun a b => a + b) lower
    (List.zipWith (fun a b => a * b) (List.zipWith (fun a b => a - b) upper lower) u)

/-- `delta = cat((t[:, 1:] - t[:, :-1], tensor([1e10])), -1)` for one ray. -/
def rayDelta (t : List ℝ) : List ℝ :=
  List.zipWith (fun a b => a - b) t.tail t.dropLast ++ [1e10]

/-- Lower bound of stratum `i` (first entry of `lower` is `t[0]`,
the rest are the midpoints). -/
def lowB (hn hf : ℝ) (n i : ℕ) : ℝ :=
  if i = 0 then hn else (lins hn hf n (i - 1) + lins hn hf n i) / 2

/-- Upper bound of stratum `i` (last entry of `upper` is `t[n-1]`,
the rest are the midpoints). -/
def highB (hn hf : ℝ) (n i : ℕ) : ℝ :=
  if i = n - 1 then lins hn hf n i else (lins hn hf n i + lins hn hf n (i + 1)) / 2

/-- Closed form of the sampler output: jitter `u i` linearly interpolated
inside stratum `[lowB i, highB i]`. -/
def strat (hn hf : ℝ) (n : ℕ) (u : ℕ → ℝ) (i : ℕ) : ℝ :=
  lowB hn hf n i + (highB hn hf n i - lowB hn hf n i) * u i

/-! ### Full renderer (`render_rays`) and chunked test renderer (`test`) -/

/-- `render_rays` restricted to a single ray with injected jitter: sample the
depths, form the 3D points `x = o + t·d`, query the network at every sample
with the ray's (expanded) direction, and composite colors and densities. -/
def render_single_ray (m : NerfModel) (hn hf : ℝ) (nb_bins : ℕ)
    (o d u : List ℝ) : List ℝ :=
  let t := raySample hn hf nb_bins u
  let delta := rayDelta t
  let xs := t.map (fun ti => List.zipWith (fun oc dc => oc + ti * dc) o d)
  let outs := xs.map (fun x => m.forward x d)
  composite (outs.map Prod.snd) delta (outs.map Prod.fst)

/-- `render_rays` on a batch: every tensor operation in `render_rays` acts
row-wise per ray, so the batch result is the row-wise single-ray render with
the per-ray jitter rows. -/
def render_rays (m : NerfModel) (hn hf : ℝ) (nb_bins : ℕ)
    (ray_origins ray_directions us : List (List ℝ)) : List (List ℝ) :=
  List.zipWith (fun od u => render_single_ray m hn hf nb_bins od.1 od.2 u)
    (ray_origins.zip ray_directions) us

/-- `test`: select the image's `H·W` dataset rows
(`dataset[img_index*H*W : (img_index+1)*H*W]`, columns `:3` and `3:6`), cut
them into `ceil(H / chunk_size)` consecutive groups of `W·chunk_size` rays,
render each group with `render_rays`, and concatenate the group results in
order. Jitters are injected per ray of the image and sliced alongside. -/
def test_render (m : NerfModel) (hn hf : ℝ) (nb_bins : ℕ) (dataset : List (List ℝ))
    (us : List (List ℝ)) (chunk_size img_index H W : ℕ) : List (List ℝ) :=
  let ray_origins := ((dataset.drop (img_index * (H * W))).take (H * W)).map
    (fun r => r.take 3)
  let ray_directions := ((dataset.drop (img_index * (H * W))).take (H * W)).map
    (fun r => (r.drop 3).take 3)
  List.flatten ((List.range ((H + chunk_size - 1) / chunk_size)).map (fun i =>
    render_rays m hn hf nb_bins
      ((ray_origins.drop (i * (W * chunk_size))).take (W * chunk_size))
      ((ray_directions.drop (i * (W * chunk_size))).take (W * chunk_size))
      ((us.drop (i * (W * chunk_size))).take (W * chunk_size))))

/-! ### Training loop (`train`)

The gradient step (`loss.backward(); optimizer.step(); optimizer.zero_grad()`)
and the scheduler (`scheduler.step()`) are the external autograd/optimizer
capability: they are parameters `upd : S → P → B → P` (which may read the
scheduler state, i.e. the current learning rate) and `sch : S → S`.
The per-epoch `for img_index in range(200): test(...)` loop is modelled by
`evalAll`, with the image writer returning `Except` (a raising
`plt.savefig`); `train` has no handler, so an error propagates, carrying the
in-place-mutated parameters and scheduler state. Per-batch jitter is
injected as data. -/

/-- A training mini-batch: rows of 9 reals
`[origin(3), direction(3), ground-truth colour(3)]` plus the per-ray jitter
rows used by `render_rays` for this batch. -/
structure Batch where
  rows : List (List ℝ)
  jit : List (List ℝ)

/-- `loss = ((ground_truth_px_values - regenerated_px_values) ** 2).sum()`:
the summed squared per-channel, per-ray colour error of one mini-batch,
with `batch[:, :3]` the origins, `batch[:, 3:6]` the directions and
`batch[:, 6:]` the ground-truth pixel values. -/
def batchLoss (hn hf : ℝ) (nb : ℕ) (m : NerfModel) (b : Batch) : ℝ :=
  (List.zipWith (fun row pred =>
      (List.zipWith (fun g p => (g - p) ^ 2) (row.drop 6) pred).sum)
    b.rows
    (render_rays m hn hf nb (b.rows.map (fun r => r.take 3))
      (b.rows.map (fun r => (r.drop 3).take 3)) b.jit)).sum

/-- One mini-batch step of `train`: record the loss at the current
parameters and update the parameters (the loss is computed before the
update; `training_loss.append(loss.item())` runs after `optimizer.step()`
but appends the pre-update value). -/
def epochStep {P B : Type} (upd : P → B → P) (lossf : P → B → ℝ)
    (q : P × List ℝ) (b : B) : P × List ℝ :=
  (upd q.1 b, q.2 ++ [lossf q.1 b])

/-- The `for img_index in range(nI): test(...)` loop: render and write each
evaluation image from the current parameters, stopping at the first raised
write error. -/
def evalAll {P I ε : Type} (renderI : P → ℕ → I) (write : ℕ → I → Except ε Unit)
    (p : P) (nI : ℕ) : Except ε Unit :=
  (List.range nI).foldlM (fun _ i => write i (renderI p i)) ()

/-- `train`: per epoch, fold the mini-batches (loss then update), advance
the scheduler, run the evaluation loop; an uncaught write error aborts the
run, leaving the mutated parameters and scheduler state as they stand. On
success it returns the final parameters, scheduler state and the
chronological `training_loss` list. -/
def train {P S B I ε : Type} (upd : S → P → B → P) (sch : S → S)
    (lossf : P → B → ℝ) (renderI : P → ℕ → I) (write : ℕ → I → Except ε Unit)
    (nI : ℕ) : List (List B) → P → S → List ℝ → Except (ε × P × S) (P × S × List ℝ)
  | [], p, s, acc => Except.ok (p, s, acc)
  | bs :: rest, p, s, acc =>
    let r := bs.foldl (epochStep (upd s) lossf) (p, acc)
    let s' := sch s
    match evalAll renderI write r.1 nI with
    | Except.error e => Except.error (e, r.1, s')
    | Except.ok _ => train upd sch lossf renderI write nI rest r.1 s' r.2

/-- Specification: the chronological per-batch losses within one epoch, each
evaluated at the parameters current when that batch is processed. -/
def epochLosses {P B : Type} (upd : P → B → P) (lossf : P → B → ℝ) :
    P → List B → List ℝ
  | _, [] => []
  | p, b :: bs => lossf p b :: epochLosses upd lossf (upd p b) bs

/-- Specification: parameters and scheduler state after all epochs. -/
def runState {P S B : Type} (upd : S → P → B → P) (sch : S → S) :
    List (List B) → P → S → P × S
  | [], p, s => (p, s)
  | bs :: rest, p, s => runState upd sch rest (bs.foldl (upd s) p) (sch s)

/-- Specification: the chronological per-batch losses across all epochs. -/
def allLosses {P S B : Type} (upd : S → P → B → P) (sch : S → S)
    (lossf : P → B → ℝ) : List (List B) → P → S → List ℝ
  | [], _, _ => []
  | bs :: rest, p, s =>
    epochLosses (upd s) lossf p bs ++
      allLosses upd sch lossf rest (bs.foldl (upd s) p) (sch s)

/-- Written from the claim: the per-sample opacity
`alpha_i = 1 − exp(−sigma_i·delta_i)` of the emission-absorption quadrature. -/
def specAlpha (σ δ : ℕ → ℝ) (i : ℕ) : ℝ := 1 - Real.exp (-(σ i * δ i))

/-- Written from the claim: the shifted transmittance `T_0 = 1`,
`T_i = Π_{j<i} (1 − alpha_j)`. -/
def specT (σ δ : ℕ → ℝ) (i : ℕ) : ℝ := ∏ j ∈ Finset.range i, (1 - specAlpha σ δ j)

/-! ## Theorems -/

/-! ### Positional encoding lemmas -/

theorem positional_encoding_succ (x : List ℝ) (L : ℕ) :
    positional_encoding x (L + 1) =
      positional_encoding x L ++
        (x.map (fun a => Real.sin (2 ^ L * a)) ++ x.map (fun a => Real.cos (2 ^ L * a))) := by
  simp [positional_encoding, List.range_succ]

theorem positional_encoding_length (x : List ℝ) (L : ℕ) :
    (positional_encoding x L).length = x.length * (1 + 2 * L) := by
  induction L with
  | zero => simp [positional_encoding]
  | succ n ih =>
    rw [positional_encoding_succ]
    simp only [List.length_append, List.length_map, ih]
    ring

/-! ### Network lemmas -/

theorem forward_density_only_position (m : NerfModel) (o d1 d2 : List ℝ) :
    (m.forward o d1).2 = (m.forward o d2).2 := rfl

/-! ### Compositor lemmas -/

theorem zipWith_ofFn {α β γ : Type} (f : α → β → γ) {n : ℕ} (a : Fin n → α) (b : Fin n → β) :
    List.zipWith f (List.ofFn a) (List.ofFn b) = List.ofFn (fun i => f (a i) (b i)) := by
  induction n with
  | zero => simp
  | succ m ih => simp [List.ofFn_succ, ih]

theorem dropLast_ofFn {α : Type} {n : ℕ} (f : Fin (n + 1) → α) :
    (List.ofFn f).dropLast = List.ofFn (fun i : Fin n => f i.castSucc) := by
  apply List.ext_getElem
  · simp
  · intro i h1 h2
    simp only [List.getElem_dropLast, List.getElem_ofFn]
    rfl

theorem cumprod_ofFn {n : ℕ} (g : ℕ → ℝ) :
    cumprod (List.ofFn (fun i : Fin n => g i)) =
      List.ofFn (fun i : Fin n => ∏ j ∈ Finset.range (i + 1), g j) := by
  induction n generalizing g with
  | zero => simp [cumprod]
  | succ m ih =>
    rw [List.ofFn_succ]
    simp only [cumprod, Fin.val_succ, Fin.val_zero]
    rw [ih (fun k => g (k + 1)), List.map_ofFn]
    rw [List.ofFn_succ (f := fun i : Fin (m + 1) => ∏ j ∈ Finset.range (↑i + 1), g j)]
    simp only [Fin.val_succ, Fin.val_zero, Function.comp_def]
    congr 1
    · simp
    · refine congrArg List.ofFn (funext fun i => ?_)
      rw [Finset.prod_range_succ' (fun j => g j) (↑i + 1)]
      ring

theorem accumulated_transmittance_ofFn {n : ℕ} (g : ℕ → ℝ) :
    compute_accumulated_transmittance (List.ofFn (fun i : Fin (n + 1) => g i)) =
      List.ofFn (fun i : Fin (n + 1) => ∏ j ∈ Finset.range i, g j) := by
  unfold compute_accumulated_transmittance
  rw [cumprod_ofFn, dropLast_ofFn]
  rw [List.ofFn_succ (f := fun i : Fin (n + 1) => ∏ j ∈ Finset.range i, g j)]
  simp [Fin.val_succ, Fin.coe_castSucc]

theorem render_alphas_ofFn {n : ℕ} (σ δ : ℕ → ℝ) :
    render_alphas (List.ofFn (fun i : Fin n => σ i)) (List.ofFn (fun i : Fin n => δ i)) =
      List.ofFn (fun i : Fin n => specAlpha σ δ i) := by
  unfold render_alphas
  rw [zipWith_ofFn]
  rfl

theorem render_weights_ofFn {n : ℕ} (σ δ : ℕ → ℝ) :
    render_weights (List.ofFn (fun i : Fin n => σ i)) (List.ofFn (fun i : Fin n => δ i)) =
      List.ofFn (fun i : Fin n => specT σ δ i * specAlpha σ δ i) := by
  unfold render_weights
  rw [render_alphas_ofFn, List.map_ofFn]
  cases n with
  | zero => simp [compute_accumulated_transmittance, cumprod]
  | succ m =>
    have h1 : ((fun a => 1 - a) ∘ fun i : Fin (m + 1) => specAlpha σ δ ↑i)
        = fun i : Fin (m + 1) => (fun j => 1 - specAlpha σ δ j) ↑i := rfl
    rw [h1, accumulated_transmittance_ofFn (g := fun j => 1 - specAlpha σ δ j), zipWith_ofFn]
    rfl

theorem weight_sum_ofFn {n : ℕ} (σ δ : ℕ → ℝ) :
    weight_sum (List.ofFn (fun i : Fin n => σ i)) (List.ofFn (fun i : Fin n => δ i)) =
      ∑ i ∈ Finset.range n, specT σ δ i * specAlpha σ δ i := by
  unfold weight_sum
  rw [render_weights_ofFn, Fin.sum_ofFn]
  exact Fin.sum_univ_eq_sum_range (fun j => specT σ δ j * specAlpha σ δ j) n

theorem vsum3_cons (a : List ℝ) (l : List (List ℝ)) :
    vsum3 (a :: l) = List.zipWith (fun p q => p + q) a (vsum3 l) := rfl

theorem vsum3_ofFn {n : ℕ} (g : ℕ → ℕ → ℝ) :
    vsum3 (List.ofFn (fun i : Fin n => List.ofFn (fun k : Fin 3 => g i k))) =
      List.ofFn (fun k : Fin 3 => ∑ i ∈ Finset.range n, g i k) := by
  induction n generalizing g with
  | zero => simp [vsum3, List.ofFn_succ]
  | succ m ih =>
    rw [List.ofFn_succ, vsum3_cons]
    simp only [Fin.val_succ, Fin.val_zero]
    rw [ih (fun i k => g (i + 1) k), zipWith_ofFn]
    refine congrArg List.ofFn (funext fun k => ?_)
    rw [Finset.sum_range_succ' (fun i => g i ↑k) m]
    ring

/-- The compositor equals the emission-absorption quadrature with white
background, channelwise (unconditional characterization). -/
theorem composite_ofFn {n : ℕ} (σ δ : ℕ → ℝ) (c : ℕ → ℕ → ℝ) :
    composite (List.ofFn (fun i : Fin n => σ i)) (List.ofFn (fun i : Fin n => δ i))
        (List.ofFn (fun i : Fin n => List.ofFn (fun k : Fin 3 => c i k))) =
      List.ofFn (fun k : Fin 3 =>
        (∑ i ∈ Finset.range n, specT σ δ i * specAlpha σ δ i * c i k) +
          (1 - ∑ i ∈ Finset.range n, specT σ δ i * specAlpha σ δ i)) := by
  unfold composite
  rw [render_weights_ofFn, weight_sum_ofFn, zipWith_ofFn]
  have h1 : (fun i : Fin n => (List.ofFn fun k : Fin 3 => c ↑i ↑k).map
        (fun x => specT σ δ ↑i * specAlpha σ δ ↑i * x))
      = fun i : Fin n => List.ofFn (fun k : Fin 3 => specT σ δ ↑i * specAlpha σ δ ↑i * c ↑i ↑k) := by
    funext i
    rw [List.map_ofFn]
    rfl
  rw [h1, vsum3_ofFn (g := fun i k => specT σ δ i * specAlpha σ δ i * c i k), List.map_ofFn]
  refine congrArg List.ofFn (funext fun k => ?_)
  show (∑ i ∈ Finset.range n, specT σ δ i * specAlpha σ δ i * c i ↑k) + 1 -
      (∑ i ∈ Finset.range n, specT σ δ i * specAlpha σ δ i) = _
  ring

theorem specAlpha_nonneg {σ δ : ℕ → ℝ} (hσ : ∀ i, 0 ≤ σ i) (hδ : ∀ i, 0 ≤ δ i) (i : ℕ) :
    0 ≤ specAlpha σ δ i := by
  have h : Real.exp (-(σ i * δ i)) ≤ 1 :=
    Real.exp_le_one_iff.mpr (neg_nonpos.mpr (mul_nonneg (hσ i) (hδ i)))
  unfold specAlpha
  linarith

theorem specAlpha_lt_one (σ δ : ℕ → ℝ) (i : ℕ) : specAlpha σ δ i < 1 := by
  have h := Real.exp_pos (-(σ i * δ i))
  unfold specAlpha
  linarith

theorem sum_weights_eq (σ δ : ℕ → ℝ) (n : ℕ) :
    ∑ i ∈ Finset.range n, specT σ δ i * specAlpha σ δ i
      = 1 - ∏ i ∈ Finset.range n, (1 - specAlpha σ δ i) := by
  induction n with
  | zero => simp
  | succ m ih =>
    rw [Finset.sum_range_succ, Finset.prod_range_succ, ih]
    unfold specT
    ring

/-! ### Ray-sampler lemmas -/

theorem tail_ofFn {α : Type} {n : ℕ} (f : Fin (n + 1) → α) :
    (List.ofFn f).tail = List.ofFn (fun i : Fin n => f i.succ) := by
  rw [List.ofFn_succ]
  rfl

theorem linspace_dropLast (hn hf : ℝ) (m : ℕ) :
    (linspace hn hf (m + 1)).dropLast =
      List.ofFn (fun i : Fin m => lins hn hf (m + 1) i) := by
  unfold linspace
  rw [dropLast_ofFn]
  rfl

theorem linspace_tail (hn hf : ℝ) (m : ℕ) :
    (linspace hn hf (m + 1)).tail =
      List.ofFn (fun i : Fin m => lins hn hf (m + 1) (i + 1)) := by
  unfold linspace
  rw [tail_ofFn]
  rfl

theorem lins_zero (hn hf : ℝ) (n : ℕ) : lins hn hf n 0 = hn := by
  simp [lins]

theorem lins_succ (hn hf : ℝ) (n i : ℕ) :
    lins hn hf n (i + 1) = lins hn hf n i + (hf - hn) / ((n : ℝ) - 1) := by
  unfold lins
  push_cast
  ring

theorem step_pos {hn hf : ℝ} {n : ℕ} (hlt : hn < hf) (hn2 : 2 ≤ n) :
    0 < (hf - hn) / ((n : ℝ) - 1) := by
  apply div_pos (by linarith)
  have h : (2 : ℝ) ≤ (n : ℝ) := by exact_mod_cast hn2
  linarith

theorem lins_last (hn hf : ℝ) (n : ℕ) (hn2 : 2 ≤ n) : lins hn hf n (n - 1) = hf := by
  unfold lins
  have h : ((n : ℝ) - 1) ≠ 0 := by
    have h2 : (2 : ℝ) ≤ (n : ℝ) := by exact_mod_cast hn2
    linarith
  have hc : ((n - 1 : ℕ) : ℝ) = (n : ℝ) - 1 := by
    have h1 : 1 ≤ n := by omega
    push_cast [h1]
    ring
  rw [hc, mul_div_assoc, div_self h, mul_one]
  ring

/-- The sampler, characterized: entry `i` is the jitter `u i` linearly
interpolated in the stratum `[lowB i, highB i]`. -/
theorem raySample_ofFn (hn hf : ℝ) (m : ℕ) (u : ℕ → ℝ) :
    raySample hn hf (m + 2) (List.ofFn (fun i : Fin (m + 2) => u i)) =
      List.ofFn (fun i : Fin (m + 2) => strat hn hf (m + 2) u i) := by
  have hmid : List.zipWith (fun a b => (a + b) / 2) (linspace hn hf (m + 2)).dropLast
      (linspace hn hf (m + 2)).tail =
      List.ofFn (fun i : Fin (m + 1) =>
        (lins hn hf (m + 2) i + lins hn hf (m + 2) (i + 1)) / 2) := by
    rw [show ((m : ℕ) + 2) = (m + 1) + 1 from rfl, linspace_dropLast, linspace_tail, zipWith_ofFn]
  have htake : (linspace hn hf (m + 2)).take 1 = [hn] := by
    unfold linspace
    rw [List.ofFn_succ]
    simp [lins]
  have hdrop : (linspace hn hf (m + 2)).drop ((linspace hn hf (m + 2)).length - 1) =
      [lins hn hf (m + 2) (m + 1)] := by
    have h1 : (linspace hn hf (m + 2)).length - 1 = m + 1 := by simp [linspace]
    rw [h1]
    unfold linspace
    rw [List.ofFn_succ', List.concat_eq_append]
    have h2 : (List.ofFn fun i : Fin (m + 1) =>
        lins hn hf (m + 2) ↑(Fin.castSucc i)).length = m + 1 := by simp
    have h3 := List.drop_left
      (List.ofFn fun i : Fin (m + 1) => lins hn hf (m + 2) ↑(Fin.castSucc i))
      [lins hn hf (m + 2) ↑(Fin.last (m + 1))]
    rw [h2] at h3
    rw [h3]
    rfl
  have hlower : ([hn] ++ List.ofFn (fun i : Fin (m + 1) =>
      (lins hn hf (m + 2) i + lins hn hf (m + 2) (i + 1)) / 2)) =
      List.ofFn (fun i : Fin (m + 2) => lowB hn hf (m + 2) i) := by
    rw [List.ofFn_succ (f := fun i : Fin (m + 2) => lowB hn hf (m + 2) ↑i)]
    have hhead : lowB hn hf (m + 2) ↑(0 : Fin (m + 2)) = hn := by simp [lowB]
    have htail : (List.ofFn fun i : Fin (m + 1) => lowB hn hf (m + 2) ↑(Fin.succ i)) =
        List.ofFn (fun i : Fin (m + 1) =>
          (lins hn hf (m + 2) ↑i + lins hn hf (m + 2) (↑i + 1)) / 2) := by
      refine congrArg List.ofFn (funext fun i => ?_)
      simp [lowB]
    rw [hhead, htail]
    rfl
  have hupper : (List.ofFn (fun i : Fin (m + 1) =>
      (lins hn hf (m + 2) i + lins hn hf (m + 2) (i + 1)) / 2) ++
        [lins hn hf (m + 2) (m + 1)]) =
      List.ofFn (fun i : Fin (m + 2) => highB hn hf (m + 2) i) := by
    rw [List.ofFn_succ' (f := fun i : Fin (m + 2) => highB hn hf (m + 2) ↑i),
      List.concat_eq_append]
    have hlast : highB hn hf (m + 2) ↑(Fin.last (m + 1)) = lins hn hf (m + 2) (m + 1) := by
      simp [highB]
    have htail : (List.ofFn fun i : Fin (m + 1) => highB hn hf (m + 2) ↑(Fin.castSucc i)) =
        List.ofFn (fun i : Fin (m + 1) =>
          (lins hn hf (m + 2) ↑i + lins hn hf (m + 2) (↑i + 1)) / 2) := by
      refine congrArg List.ofFn (funext fun i => ?_)
      have hi := i.isLt
      have hne : (i : ℕ) ≠ m + 1 := by omega
      simp [highB, Fin.coe_castSucc, hne]
    rw [hlast, htail]
  simp only [raySample]
  rw [hmid, htake, hdrop, hlower, hupper]
  rw [zipWith_ofFn, zipWith_ofFn, zipWith_ofFn]
  rfl

theorem lowB_lt_highB {hn hf : ℝ} {n : ℕ} (hlt : hn < hf) (hn2 : 2 ≤ n) (i : ℕ) :
    lowB hn hf n i < highB hn hf n i := by
  have hs := step_pos hlt hn2
  rcases Nat.eq_zero_or_pos i with h0 | hpos
  · subst h0
    have h1 : (0 : ℕ) ≠ n - 1 := by omega
    rw [lowB, highB, if_pos rfl, if_neg h1]
    have h2 := lins_succ hn hf n 0
    rw [lins_zero] at h2
    simp only [Nat.zero_add] at h2
    rw [lins_zero, h2]
    linarith
  · have hne0 : i ≠ 0 := by omega
    have hi1 : i - 1 + 1 = i := by omega
    have hstep1 : lins hn hf n i = lins hn hf n (i - 1) + (hf - hn) / ((n : ℝ) - 1) := by
      conv_lhs => rw [← hi1]
      rw [lins_succ]
    rcases eq_or_ne i (n - 1) with hend | hend
    · rw [lowB, highB, if_neg hne0, if_pos hend]
      linarith
    · rw [lowB, highB, if_neg hne0, if_neg hend]
      have hstep2 := lins_succ hn hf n i
      linarith

theorem highB_eq_lowB_succ (hn hf : ℝ) (n i : ℕ) (h : i + 1 < n) :
    highB hn hf n i = lowB hn hf n (i + 1) := by
  have h1 : i ≠ n - 1 := by omega
  have h2 : i + 1 ≠ 0 := by omega
  rw [highB, lowB, if_neg h1, if_neg h2, Nat.add_sub_cancel]

theorem strat_bounds {hn hf : ℝ} {n : ℕ} (hlt : hn < hf) (hn2 : 2 ≤ n)
    (u : ℕ → ℝ) (hu : ∀ i, 0 ≤ u i ∧ u i < 1) (i : ℕ) :
    lowB hn hf n i ≤ strat hn hf n u i ∧ strat hn hf n u i < highB hn hf n i := by
  have hlh := lowB_lt_highB hlt hn2 i
  have hu0 := (hu i).1
  have hu1 := (hu i).2
  unfold strat
  constructor
  · nlinarith
  · nlinarith

theorem strat_mono {hn hf : ℝ} {n : ℕ} (hlt : hn < hf) (hn2 : 2 ≤ n)
    (u : ℕ → ℝ) (hu : ∀ i, 0 ≤ u i ∧ u i < 1) :
    ∀ j, j < n → ∀ i, i < j → strat hn hf n u i < strat hn hf n u j := by
  intro j
  induction j with
  | zero => intro _ i hik; exact absurd hik (Nat.not_lt_zero i)
  | succ k ih =>
    intro hk i hik
    have hadj : strat hn hf n u k < strat hn hf n u (k + 1) := by
      have h1 := (strat_bounds hlt hn2 u hu k).2
      have h2 := (strat_bounds hlt hn2 u hu (k + 1)).1
      have h3 := highB_eq_lowB_succ hn hf n k hk
      linarith
    rcases Nat.lt_succ_iff_lt_or_eq.mp hik with h | h
    · exact lt_trans (ih (by omega) i h) hadj
    · subst h
      exact hadj

theorem rayDelta_ofFn {m : ℕ} (g : ℕ → ℝ) :
    rayDelta (List.ofFn (fun i : Fin (m + 1) => g i)) =
      (List.ofFn (fun i : Fin m => g (↑i + 1) - g ↑i)) ++ [1e10] := by
  unfold rayDelta
  rw [tail_ofFn, dropLast_ofFn, zipWith_ofFn]
  rfl

theorem sum_ofFn_sub {m : ℕ} (g : ℕ → ℝ) :
    (List.ofFn (fun i : Fin m => g (↑i + 1) - g ↑i)).sum = g m - g 0 := by
  rw [Fin.sum_ofFn, Fin.sum_univ_eq_sum_range (fun i => g (i + 1) - g i) m]
  exact Finset.sum_range_sub g m

theorem lowB_zero (hn hf : ℝ) (n : ℕ) : lowB hn hf n 0 = hn := by
  simp [lowB]

theorem highB_last (hn hf : ℝ) (m : ℕ) : highB hn hf (m + 2) (m + 1) = hf := by
  have h3 := lins_last hn hf (m + 2) (by omega)
  have h4 : m + 2 - 1 = m + 1 := by omega
  rw [h4] at h3
  simp [highB, h3]

theorem highB_zero (hn hf : ℝ) (m : ℕ) :
    highB hn hf (m + 2) 0 = hn + (hf - hn) / (((m + 2 : ℕ) : ℝ) - 1) / 2 := by
  have h0 : (0 : ℕ) ≠ m + 2 - 1 := by omega
  rw [highB, if_neg h0]
  have h2 := lins_succ hn hf (m + 2) 0
  rw [lins_zero] at h2
  simp only [Nat.zero_add] at h2
  rw [lins_zero, h2]
  ring

theorem lowB_last (hn hf : ℝ) (m : ℕ) :
    lowB hn hf (m + 2) (m + 1) = hf - (hf - hn) / (((m + 2 : ℕ) : ℝ) - 1) / 2 := by
  have h0 : m + 1 ≠ 0 := by omega
  rw [lowB, if_neg h0, Nat.add_sub_cancel]
  have hml : lins hn hf (m + 2) (m + 1) = hf := by
    have h3 := lins_last hn hf (m + 2) (by omega)
    simpa using h3
  have hm := lins_succ hn hf (m + 2) m
  rw [hml] at hm
  rw [hml]
  linarith

/-! ### Chunked-renderer lemmas -/

theorem zip_as_zipWith {α β : Type} (l : List α) (l' : List β) :
    l.zip l' = List.zipWith Prod.mk l l' := rfl

/-- Rendering a contiguous slice of the rays (with the matching slice of the
jitters) is the slice of the full render: `render_rays` is row-wise. -/
theorem render_rays_slice (m : NerfModel) (hn hf : ℝ) (nb : ℕ)
    (os ds us : List (List ℝ)) (a b : ℕ) :
    render_rays m hn hf nb ((os.drop a).take b) ((ds.drop a).take b) ((us.drop a).take b) =
      ((render_rays m hn hf nb os ds us).drop a).take b := by
  unfold render_rays
  simp only [zip_as_zipWith]
  rw [← List.take_zipWith, ← List.drop_zipWith, ← List.take_zipWith, ← List.drop_zipWith]

theorem flatten_chunks {α : Type} (s : ℕ) :
    ∀ (k : ℕ) (l : List α), l.length ≤ k * s →
      List.flatten ((List.range k).map (fun i => (l.drop (i * s)).take s)) = l := by
  intro k
  induction k with
  | zero =>
    intro l hl
    simp only [Nat.zero_mul, Nat.le_zero] at hl
    rw [List.length_eq_zero.mp hl]
    rfl
  | succ q ih =>
    intro l hl
    rw [List.range_succ_eq_map, List.map_cons, List.map_map, List.flatten_cons]
    have h1 : ((fun i => (l.drop (i * s)).take s) ∘ Nat.succ) =
        fun i => (((l.drop s).drop (i * s)).take s) := by
      funext i
      simp only [Function.comp]
      rw [List.drop_drop]
      have h2 : Nat.succ i * s = s + i * s := by rw [Nat.succ_mul, Nat.add_comm]
      rw [h2]
    rw [h1]
    have hl' : l.length ≤ q * s + s := by
      have h3 : (q + 1) * s = q * s + s := by ring
      rw [h3] at hl
      exact hl
    rw [ih (l.drop s) (by rw [List.length_drop]; omega)]
    simp only [Nat.zero_mul, List.drop_zero]
    exact List.take_append_drop s l

/-- Joining the per-chunk renders of consecutive ray groups reproduces the
render of the whole batch. -/
theorem render_rays_chunked (m : NerfModel) (hn hf : ℝ) (nb : ℕ)
    (os ds us : List (List ℝ)) (k s : ℕ) (hlen : os.length ≤ k * s) :
    List.flatten ((List.range k).map (fun i =>
      render_rays m hn hf nb ((os.drop (i * s)).take s) ((ds.drop (i * s)).take s)
        ((us.drop (i * s)).take s))) =
      render_rays m hn hf nb os ds us := by
  have h1 : (fun i => render_rays m hn hf nb ((os.drop (i * s)).take s)
      ((ds.drop (i * s)).take s) ((us.drop (i * s)).take s)) =
      fun i => (((render_rays m hn hf nb os ds us).drop (i * s)).take s) :=
    funext (fun i => render_rays_slice m hn hf nb os ds us (i * s) s)
  rw [h1]
  apply flatten_chunks
  have h2 : (render_rays m hn hf nb os ds us).length ≤ os.length := by
    unfold render_rays
    rw [List.length_zipWith, zip_as_zipWith, List.length_zipWith]
    omega
  omega

theorem le_ceilDiv_mul (H c : ℕ) (hc : 0 < c) : H ≤ (H + c - 1) / c * c := by
  have h1 : c * ((H + c - 1) / c) + (H + c - 1) % c = H + c - 1 := Nat.div_add_mod _ c
  rw [Nat.mul_comm] at h1
  have h2 : (H + c - 1) % c < c := Nat.mod_lt _ hc
  generalize hA : (H + c - 1) / c * c = A at h1 ⊢
  generalize hr : (H + c - 1) % c = r at h1 h2
  omega

/-! ### Claim theorems -/

/-- C6: for a 3-component input row `v` and any `L ≥ 0`, the positional
encoding of `(v, L)` has width `3·(1+2L)`, its first 3 components are `v`
exactly (so projecting onto the first 3 components recovers the input), and
for `L = 0` the output is the input unchanged. -/
theorem C6_positional_encoding_shape (v : List ℝ) (L : ℕ) (h : v.length = 3) :
    (positional_encoding v L).length = 3 * (1 + 2 * L) ∧
    (positional_encoding v L).take 3 = v ∧
    positional_encoding v 0 = v := by
  refine ⟨by rw [positional_encoding_length, h], ?_, by simp [positional_encoding]⟩
  have hx : positional_encoding v L = v ++
      List.flatten ((List.range L).flatMap (fun j =>
        [v.map (fun a => Real.sin (2 ^ j * a)), v.map (fun a => Real.cos (2 ^ j * a))])) := by
    simp [positional_encoding]
  rw [hx, ← h, List.take_left]

theorem C6_witness :
    ([(1 : ℝ), 2, 3].length = 3) ∧
      ((positional_encoding [(1 : ℝ), 2, 3] 4).length = 3 * (1 + 2 * 4) ∧
       (positional_encoding [(1 : ℝ), 2, 3] 4).take 3 = [(1 : ℝ), 2, 3] ∧
       positional_encoding [(1 : ℝ), 2, 3] 0 = [(1 : ℝ), 2, 3]) :=
  ⟨rfl, C6_positional_encoding_shape [(1 : ℝ), 2, 3] 4 rfl⟩

/-- C2: for fixed parameters, any position batch, and any two direction
batches with the same row count, the density output of the network is the
same: the returned sigma depends only on position, and the direction enters
the computation only after sigma has been produced. -/
theorem C2_density_independent_of_direction (m : NerfModel) (os d1s d2s : List (List ℝ))
    (h : d1s.length = d2s.length) :
    (m.forwardBatch os d1s).2 = (m.forwardBatch os d2s).2 := by
  unfold NerfModel.forwardBatch
  dsimp only
  induction os generalizing d1s d2s with
  | nil => simp
  | cons o os ih =>
    cases d1s with
    | nil =>
      cases d2s with
      | nil => rfl
      | cons d2 d2s' => simp at h
    | cons d1 d1s' =>
      cases d2s with
      | nil => simp at h
      | cons d2 d2s' =>
        simp only [List.zip_cons_cons, List.map_cons, List.cons.injEq]
        exact ⟨forward_density_only_position m o d1 d2, ih d1s' d2s' (by simpa using h)⟩

theorem C2_witness :
    (trivialModel.forwardBatch [[(1 : ℝ), 2, 3]] [[(1 : ℝ), 0, 0]]).2 =
      (trivialModel.forwardBatch [[(1 : ℝ), 2, 3]] [[(0 : ℝ), 1, 0]]).2 :=
  C2_density_independent_of_direction trivialModel
    [[(1 : ℝ), 2, 3]] [[(1 : ℝ), 0, 0]] [[(0 : ℝ), 1, 0]] rfl

/-- C1: for per-sample densities `σ_i ≥ 0`, interval lengths `δ_i > 0` and
colors `c_i`, the compositor of `render_rays` returns, per ray and channel,
exactly `Σ_i T_i·α_i·c_i + (1 − Σ_i T_i·α_i)·1` with `α_i = 1 − exp(−σ_i·δ_i)`,
`T_0 = 1`, `T_i = Π_{j<i}(1 − α_j)`: the shifted-cumulative-product
emission-absorption quadrature with a white background. -/
theorem C1_render_rays_quadrature (n : ℕ) (σ δ : ℕ → ℝ) (c : ℕ → ℕ → ℝ)
    (hσ : ∀ i, 0 ≤ σ i) (hδ : ∀ i, 0 < δ i) :
    composite (List.ofFn (fun i : Fin n => σ i)) (List.ofFn (fun i : Fin n => δ i))
        (List.ofFn (fun i : Fin n => List.ofFn (fun k : Fin 3 => c i k))) =
      List.ofFn (fun k : Fin 3 =>
        (∑ i ∈ Finset.range n, specT σ δ i * specAlpha σ δ i * c i k) +
          (1 - ∑ i ∈ Finset.range n, specT σ δ i * specAlpha σ δ i) * 1) := by
  rw [composite_ofFn]
  refine congrArg List.ofFn (funext fun k => ?_)
  ring

theorem C1_witness :
    composite (List.ofFn (fun _ : Fin 1 => (0 : ℝ))) (List.ofFn (fun _ : Fin 1 => (1 : ℝ)))
        (List.ofFn (fun _ : Fin 1 => List.ofFn (fun _ : Fin 3 => (1 : ℝ)))) =
      List.ofFn (fun k : Fin 3 =>
        (∑ i ∈ Finset.range 1, specT (fun _ => 0) (fun _ => 1) i *
            specAlpha (fun _ => 0) (fun _ => 1) i * 1) +
          (1 - ∑ i ∈ Finset.range 1, specT (fun _ => 0) (fun _ => 1) i *
            specAlpha (fun _ => 0) (fun _ => 1) i) * 1) :=
  C1_render_rays_quadrature 1 (fun _ => 0) (fun _ => 1) (fun _ _ => 1)
    (fun _ => le_refl 0) (fun _ => one_pos)

/-- C5: for densities ≥ 0 and sample colors in `[0,1]`, the accumulated
opacity `weight_sum` lies in `[0,1]`; if every density is 0 then
`weight_sum = 0` and the rendered pixel is exactly white `(1,1,1)`; and every
channel of the rendered pixel lies in `[0,1]`. -/
theorem C5_weight_sum_and_color_bounds (n : ℕ) (σ δ : ℕ → ℝ) (c : ℕ → ℕ → ℝ)
    (hσ : ∀ i, 0 ≤ σ i) (hδ : ∀ i, 0 ≤ δ i) (hc : ∀ i k, 0 ≤ c i k ∧ c i k ≤ 1) :
    (0 ≤ weight_sum (List.ofFn (fun i : Fin n => σ i)) (List.ofFn (fun i : Fin n => δ i)) ∧
      weight_sum (List.ofFn (fun i : Fin n => σ i)) (List.ofFn (fun i : Fin n => δ i)) ≤ 1) ∧
    ((∀ i, σ i = 0) →
      weight_sum (List.ofFn (fun i : Fin n => σ i)) (List.ofFn (fun i : Fin n => δ i)) = 0 ∧
      composite (List.ofFn (fun i : Fin n => σ i)) (List.ofFn (fun i : Fin n => δ i))
        (List.ofFn (fun i : Fin n => List.ofFn (fun k : Fin 3 => c i k))) = [1, 1, 1]) ∧
    (∀ x ∈ composite (List.ofFn (fun i : Fin n => σ i)) (List.ofFn (fun i : Fin n => δ i))
        (List.ofFn (fun i : Fin n => List.ofFn (fun k : Fin 3 => c i k))), 0 ≤ x ∧ x ≤ 1) := by
  have hα0 : ∀ i, 0 ≤ specAlpha σ δ i := specAlpha_nonneg hσ hδ
  have hα1 : ∀ i, specAlpha σ δ i < 1 := specAlpha_lt_one σ δ
  have hT0 : ∀ i, 0 ≤ specT σ δ i :=
    fun i => Finset.prod_nonneg (fun j _ => by linarith [hα1 j])
  have hw0 : ∀ i, 0 ≤ specT σ δ i * specAlpha σ δ i :=
    fun i => mul_nonneg (hT0 i) (hα0 i)
  have hS0 : 0 ≤ ∑ i ∈ Finset.range n, specT σ δ i * specAlpha σ δ i :=
    Finset.sum_nonneg (fun i _ => hw0 i)
  have hP0 : 0 ≤ ∏ i ∈ Finset.range n, (1 - specAlpha σ δ i) :=
    Finset.prod_nonneg (fun j _ => by linarith [hα1 j])
  have hS1 : ∑ i ∈ Finset.range n, specT σ δ i * specAlpha σ δ i ≤ 1 := by
    rw [sum_weights_eq]
    linarith
  simp only [weight_sum_ofFn, composite_ofFn]
  refine ⟨⟨hS0, hS1⟩, ?_, ?_⟩
  · intro h0
    have hA : ∀ i, specAlpha σ δ i = 0 := fun i => by simp [specAlpha, h0 i]
    have hS : ∑ i ∈ Finset.range n, specT σ δ i * specAlpha σ δ i = 0 :=
      Finset.sum_eq_zero (fun i _ => by rw [hA i, mul_zero])
    refine ⟨hS, ?_⟩
    have hterm : ∀ k : Fin 3,
        (∑ i ∈ Finset.range n, specT σ δ i * specAlpha σ δ i * c i ↑k) = 0 :=
      fun k => Finset.sum_eq_zero (fun i _ => by rw [hA i]; ring)
    have hg : (fun k : Fin 3 =>
        (∑ i ∈ Finset.range n, specT σ δ i * specAlpha σ δ i * c i ↑k) +
          (1 - ∑ i ∈ Finset.range n, specT σ δ i * specAlpha σ δ i)) = fun _ : Fin 3 => 1 := by
      funext k
      rw [hterm k, hS]
      ring
    rw [hg]
    simp [List.ofFn_succ]
  · intro x hx
    rw [List.mem_ofFn] at hx
    obtain ⟨k, rfl⟩ := hx
    have hcs0 : 0 ≤ ∑ i ∈ Finset.range n, specT σ δ i * specAlpha σ δ i * c i ↑k :=
      Finset.sum_nonneg (fun i _ => mul_nonneg (hw0 i) (hc i ↑k).1)
    have hcs1 : ∑ i ∈ Finset.range n, specT σ δ i * specAlpha σ δ i * c i ↑k ≤
        ∑ i ∈ Finset.range n, specT σ δ i * specAlpha σ δ i :=
      Finset.sum_le_sum (fun i _ => mul_le_of_le_one_right (hw0 i) (hc i ↑k).2)
    dsimp only
    constructor
    · have : (0 : ℝ) ≤ 1 - ∑ i ∈ Finset.range n, specT σ δ i * specAlpha σ δ i := by linarith
      linarith
    · linarith

theorem C5_witness :
    (0 ≤ weight_sum (List.ofFn (fun _ : Fin 1 => (0 : ℝ))) (List.ofFn (fun _ : Fin 1 => (1 : ℝ))) ∧
      weight_sum (List.ofFn (fun _ : Fin 1 => (0 : ℝ))) (List.ofFn (fun _ : Fin 1 => (1 : ℝ))) ≤ 1) ∧
    ((∀ _ : ℕ, (0 : ℝ) = 0) →
      weight_sum (List.ofFn (fun _ : Fin 1 => (0 : ℝ))) (List.ofFn (fun _ : Fin 1 => (1 : ℝ))) = 0 ∧
      composite (List.ofFn (fun _ : Fin 1 => (0 : ℝ))) (List.ofFn (fun _ : Fin 1 => (1 : ℝ)))
        (List.ofFn (fun _ : Fin 1 => List.ofFn (fun _ : Fin 3 => (1 / 2 : ℝ)))) = [1, 1, 1]) ∧
    (∀ x ∈ composite (List.ofFn (fun _ : Fin 1 => (0 : ℝ))) (List.ofFn (fun _ : Fin 1 => (1 : ℝ)))
        (List.ofFn (fun _ : Fin 1 => List.ofFn (fun _ : Fin 3 => (1 / 2 : ℝ)))), 0 ≤ x ∧ x ≤ 1) :=
  C5_weight_sum_and_color_bounds 1 (fun _ => 0) (fun _ => 1) (fun _ _ => 1 / 2)
    (fun _ => le_refl 0) (fun _ => zero_le_one) (fun _ _ => by norm_num)

/-- C3: for `near < far`, `num_bins ≥ 2` and per-bin jitters in `[0,1)`, the
sampled depths of one ray are strictly increasing, the first depth is
`≥ near` and the last depth is `≤ far`. -/
theorem C3_raySample_ordered (hn hf : ℝ) (n : ℕ) (u : ℕ → ℝ)
    (hlt : hn < hf) (hn2 : 2 ≤ n) (hu : ∀ i, 0 ≤ u i ∧ u i < 1) :
    (raySample hn hf n (List.ofFn (fun i : Fin n => u i))).Pairwise (· < ·) ∧
    (∀ a ∈ (raySample hn hf n (List.ofFn (fun i : Fin n => u i))).head?, hn ≤ a) ∧
    (∀ a ∈ (raySample hn hf n (List.ofFn (fun i : Fin n => u i))).getLast?, a ≤ hf) := by
  obtain ⟨m, rfl⟩ : ∃ m, n = m + 2 := ⟨n - 2, by omega⟩
  rw [raySample_ofFn]
  refine ⟨?_, ?_, ?_⟩
  · rw [List.pairwise_ofFn]
    intro i j hij
    exact strat_mono hlt (by omega) u hu ↑j j.isLt ↑i hij
  · intro a ha
    rw [List.ofFn_succ, List.head?_cons, Option.mem_some_iff] at ha
    subst ha
    have h1 := (strat_bounds (n := m + 2) hlt (by omega) u hu 0).1
    have h2 := lowB_zero hn hf (m + 2)
    simp only [Fin.val_zero]
    linarith
  · intro a ha
    rw [List.ofFn_succ', List.concat_eq_append, List.getLast?_concat,
      Option.mem_some_iff] at ha
    subst ha
    have h1 := (strat_bounds (n := m + 2) hlt (by omega) u hu (m + 1)).2
    have h2 : highB hn hf (m + 2) (m + 1) = hf := highB_last hn hf m
    simp only [Fin.val_last]
    linarith

theorem C3_witness :
    (raySample 0 1 2 (List.ofFn (fun _ : Fin 2 => (1 / 2 : ℝ)))).Pairwise (· < ·) ∧
    (∀ a ∈ (raySample 0 1 2 (List.ofFn (fun _ : Fin 2 => (1 / 2 : ℝ)))).head?, (0 : ℝ) ≤ a) ∧
    (∀ a ∈ (raySample 0 1 2 (List.ofFn (fun _ : Fin 2 => (1 / 2 : ℝ)))).getLast?, a ≤ 1) :=
  C3_raySample_ordered 0 1 2 (fun _ => 1 / 2) (by norm_num) (by norm_num)
    (fun _ => by norm_num)

/-- C4 (amended): the sum of the non-sentinel deltas telescopes to
`last_depth − first_depth`; it differs from `far − near` by strictly less
than one stratum width `(far − near)/(num_bins − 1)` — not merely by
floating-point tolerance — and the last delta is the sentinel `1e10`. -/
theorem C4_delta_sum_and_sentinel (hn hf : ℝ) (n : ℕ) (u : ℕ → ℝ)
    (hlt : hn < hf) (hn2 : 2 ≤ n) (hu : ∀ i, 0 ≤ u i ∧ u i < 1) :
    |(rayDelta (raySample hn hf n (List.ofFn (fun i : Fin n => u i)))).dropLast.sum -
        (hf - hn)| < (hf - hn) / ((n : ℝ) - 1) ∧
    (rayDelta (raySample hn hf n (List.ofFn (fun i : Fin n => u i)))).getLast? =
      some 1e10 := by
  obtain ⟨m, rfl⟩ : ∃ m, n = m + 2 := ⟨n - 2, by omega⟩
  rw [raySample_ofFn, rayDelta_ofFn (g := strat hn hf (m + 2) u)]
  rw [List.dropLast_concat, List.getLast?_concat, sum_ofFn_sub]
  have hb0 := strat_bounds hlt (by omega : 2 ≤ m + 2) u hu 0
  have hbl := strat_bounds hlt (by omega : 2 ≤ m + 2) u hu (m + 1)
  have hstep := step_pos hlt (show 2 ≤ m + 2 by omega)
  have hL0 := lowB_zero hn hf (m + 2)
  have hH0 := highB_zero hn hf m
  have hLl := lowB_last hn hf m
  have hHl : highB hn hf (m + 2) (m + 1) = hf := highB_last hn hf m
  rw [abs_lt]
  refine ⟨⟨?_, ?_⟩, rfl⟩
  · linarith [hb0.2, hbl.1]
  · linarith [hb0.1, hbl.2]

theorem C4_witness :
    |(rayDelta (raySample 0 1 2 (List.ofFn (fun _ : Fin 2 => (1 / 2 : ℝ))))).dropLast.sum -
        ((1 : ℝ) - 0)| < ((1 : ℝ) - 0) / ((2 : ℕ) - 1) ∧
    (rayDelta (raySample 0 1 2 (List.ofFn (fun _ : Fin 2 => (1 / 2 : ℝ))))).getLast? =
      some 1e10 :=
  C4_delta_sum_and_sentinel 0 1 2 (fun _ => 1 / 2) (by norm_num) (by norm_num)
    (fun _ => by norm_num)

/-- C4 counterexample: with `near = 0`, `far = 1`, `num_bins = 2` and jitters
`[1/2, 0]`, the non-sentinel delta sum is `1/4`, not `far − near = 1`: it is
off by `3/4`, far beyond floating tolerance. -/
theorem C4_counterexample :
    (rayDelta (raySample 0 1 2 [1 / 2, 0])).dropLast.sum = 1 / 4 ∧
    (rayDelta (raySample 0 1 2 [1 / 2, 0])).dropLast.sum ≠ (1 : ℝ) - 0 ∧
    ((1 : ℝ) - 0) - (rayDelta (raySample 0 1 2 [1 / 2, 0])).dropLast.sum = 3 / 4 := by
  norm_num [raySample, linspace, lins, rayDelta, List.ofFn_succ]

/-- C9: chunked rendering selects exactly the image's `H·W` dataset rows,
cuts them in order into `ceil(H/chunk_size)` consecutive groups of
`chunk_size·W` rays (the last group possibly smaller), renders each group,
and the in-order concatenation equals rendering all `H·W` rays of the image
in one unchunked call, given the same per-ray jitters and parameters. -/
theorem C9_chunked_render_eq (m : NerfModel) (hn hf : ℝ) (nb c idx H W : ℕ)
    (dataset us : List (List ℝ)) (hc : 0 < c)
    (hlen : (idx + 1) * (H * W) ≤ dataset.length) (hus : us.length = H * W) :
    test_render m hn hf nb dataset us c idx H W =
      render_rays m hn hf nb
        (((dataset.drop (idx * (H * W))).take (H * W)).map (fun r => r.take 3))
        (((dataset.drop (idx * (H * W))).take (H * W)).map (fun r => (r.drop 3).take 3))
        us := by
  simp only [test_render]
  apply render_rays_chunked
  have hos : (((dataset.drop (idx * (H * W))).take (H * W)).map
      (fun r => r.take 3)).length = H * W := by
    rw [List.length_map, List.length_take, List.length_drop]
    rw [Nat.add_mul] at hlen
    omega
  rw [hos]
  have hq := le_ceilDiv_mul H c hc
  calc H * W ≤ (H + c - 1) / c * c * W := Nat.mul_le_mul_right W hq
  _ = (H + c - 1) / c * (W * c) := by ring

theorem C9_witness :
    test_render trivialModel 0 1 2 [List.replicate 9 0] [[0, 0]] 1 0 1 1 =
      render_rays trivialModel 0 1 2
        ((([List.replicate 9 (0 : ℝ)].drop (0 * (1 * 1))).take (1 * 1)).map
          (fun r => r.take 3))
        ((([List.replicate 9 (0 : ℝ)].drop (0 * (1 * 1))).take (1 * 1)).map
          (fun r => (r.drop 3).take 3))
        [[0, 0]] :=
  C9_chunked_render_eq trivialModel 0 1 2 1 0 1 1 [List.replicate 9 0] [[0, 0]]
    (by norm_num) (by norm_num) rfl

/-! ### Training-loop lemmas -/

theorem foldl_epochStep {P B : Type} (upd : P → B → P) (lossf : P → B → ℝ) :
    ∀ (bs : List B) (p : P) (acc : List ℝ),
      bs.foldl (epochStep upd lossf) (p, acc) =
        (bs.foldl upd p, acc ++ epochLosses upd lossf p bs)
  | [], p, acc => by simp [epochLosses]
  | b :: bs, p, acc => by
    simp only [List.foldl_cons, epochStep, epochLosses]
    rw [foldl_epochStep upd lossf bs (upd p b) (acc ++ [lossf p b])]
    simp

theorem evalAll_ok {P I ε : Type} (renderI : P → ℕ → I) (p : P) (nI : ℕ) :
    evalAll renderI (fun _ _ => (Except.ok () : Except ε Unit)) p nI = Except.ok () := by
  unfold evalAll
  have h : ∀ l : List ℕ,
      l.foldlM (fun (_ : Unit) (i : ℕ) => (Except.ok () : Except ε Unit)) () =
        Except.ok () := by
    intro l
    induction l with
    | nil => rfl
    | cons a l ih => simpa [List.foldlM_cons] using ih
  exact h _

theorem evalAll_fail {P I ε : Type} (renderI : P → ℕ → I) (e : ε) (p : P) (nI : ℕ)
    (h : 0 < nI) :
    evalAll renderI (fun _ _ => (Except.error e : Except ε Unit)) p nI =
      Except.error e := by
  unfold evalAll
  obtain ⟨k, rfl⟩ : ∃ k, nI = k + 1 := ⟨nI - 1, by omega⟩
  rw [List.range_succ_eq_map, List.foldlM_cons]
  rfl

theorem train_ok_eq {P S B I ε : Type} (upd : S → P → B → P) (sch : S → S)
    (lossf : P → B → ℝ) (renderI : P → ℕ → I) (nI : ℕ) :
    ∀ (epochs : List (List B)) (p : P) (s : S) (acc : List ℝ),
      train upd sch lossf renderI (fun _ _ => (Except.ok () : Except ε Unit)) nI
          epochs p s acc =
        Except.ok ((runState upd sch epochs p s).1, (runState upd sch epochs p s).2,
          acc ++ allLosses upd sch lossf epochs p s)
  | [], p, s, acc => by simp [train, runState, allLosses]
  | bs :: rest, p, s, acc => by
    rw [train]
    simp only [foldl_epochStep, evalAll_ok]
    rw [train_ok_eq upd sch lossf renderI nI rest (bs.foldl (upd s) p) (sch s)
      (acc ++ epochLosses (upd s) lossf p bs)]
    simp [runState, allLosses]

theorem epochLosses_length {P B : Type} (upd : P → B → P) (lossf : P → B → ℝ) :
    ∀ (bs : List B) (p : P), (epochLosses upd lossf p bs).length = bs.length
  | [], _ => rfl
  | b :: bs, p => by
    simp [epochLosses, epochLosses_length upd lossf bs (upd p b)]

theorem allLosses_length {P S B : Type} (upd : S → P → B → P) (sch : S → S)
    (lossf : P → B → ℝ) :
    ∀ (epochs : List (List B)) (p : P) (s : S),
      (allLosses upd sch lossf epochs p s).length = (epochs.map List.length).sum
  | [], _, _ => rfl
  | bs :: rest, p, s => by
    simp [allLosses, epochLosses_length,
      allLosses_length upd sch lossf rest (bs.foldl (upd s) p) (sch s)]

/-- C7: the per-epoch evaluation rendering is observability only: with
successful writes, the result of `train` (parameter updates, loss values and
scheduler advancement) is identical for any two evaluation renderers and
image counts — including `nI = 0`, no evaluation at all. -/
theorem C7_eval_independence {P S B I1 I2 ε : Type}
    (upd : S → P → B → P) (sch : S → S) (lossf : P → B → ℝ)
    (renderI1 : P → ℕ → I1) (renderI2 : P → ℕ → I2) (nI1 nI2 : ℕ) :
    ∀ (epochs : List (List B)) (p : P) (s : S) (acc : List ℝ),
      train upd sch lossf renderI1 (fun _ _ => (Except.ok () : Except ε Unit)) nI1
          epochs p s acc =
        train upd sch lossf renderI2 (fun _ _ => (Except.ok () : Except ε Unit)) nI2
          epochs p s acc
  | [], p, s, acc => rfl
  | bs :: rest, p, s, acc => by
    rw [train, train]
    simp only [evalAll_ok]
    exact C7_eval_independence upd sch lossf renderI1 renderI2 nI1 nI2 rest _ _ _

/-- C8 counterexample: with an always-failing image writer, a two-epoch run
aborts after the first epoch's evaluation instead of continuing: `train`
returns an error (the second epoch's update never happens), contradicting
"the error is logged and training continues". -/
theorem C8_counterexample :
    train (fun (_ : ℕ) (p : ℕ) (_ : Unit) => p + 1) Nat.succ (fun _ _ => (0 : ℝ))
        (fun _ _ => ()) (fun _ _ => (Except.error () : Except Unit Unit)) 1
        [[()], [()]] 0 0 [] = Except.error ((), 1, 1) ∧
    ∀ r : ℕ × ℕ × List ℝ,
      train (fun (_ : ℕ) (p : ℕ) (_ : Unit) => p + 1) Nat.succ (fun _ _ => (0 : ℝ))
          (fun _ _ => ()) (fun _ _ => (Except.error () : Except Unit Unit)) 1
          [[()], [()]] 0 0 [] ≠ Except.ok r := by
  have h1 : train (fun (_ : ℕ) (p : ℕ) (_ : Unit) => p + 1) Nat.succ (fun _ _ => (0 : ℝ))
      (fun _ _ => ()) (fun _ _ => (Except.error () : Except Unit Unit)) 1
      [[()], [()]] 0 0 [] = Except.error ((), 1, 1) := rfl
  exact ⟨h1, fun r h => by rw [h1] at h; exact Except.noConfusion h⟩

/-- C8 (amended): an IO error while writing an evaluation image is uncaught
and fatal: the exception propagates and aborts the run after the failing
epoch, with the in-place parameter updates and the scheduler step of that
epoch retained (model and optimizer state are not corrupted), but later
epochs do not run and the loss list is not returned. -/
theorem C8_write_error_aborts {P S B I ε : Type} (upd : S → P → B → P) (sch : S → S)
    (lossf : P → B → ℝ) (renderI : P → ℕ → I) (e : ε) (nI : ℕ) (hnI : 0 < nI)
    (bs : List B) (rest : List (List B)) (p : P) (s : S) (acc : List ℝ) :
    train upd sch lossf renderI (fun _ _ => (Except.error e : Except ε Unit)) nI
        (bs :: rest) p s acc =
      Except.error (e, bs.foldl (upd s) p, sch s) := by
  rw [train]
  simp only [foldl_epochStep, evalAll_fail renderI e _ nI hnI]

theorem C8_witness :
    train (fun (_ : ℕ) (p : ℕ) (_ : Unit) => p + 1) Nat.succ (fun _ _ => (0 : ℝ))
        (fun _ _ => ()) (fun _ _ => (Except.error () : Except Unit Unit)) 1
        ([()] :: [[()]]) 0 0 [] =
      Except.error ((), [()].foldl ((fun (_ : ℕ) (p : ℕ) (_ : Unit) => p + 1) 0) 0,
        Nat.succ 0) :=
  C8_write_error_aborts (fun _ p _ => p + 1) Nat.succ (fun _ _ => 0) (fun _ _ => ())
    () 1 (by norm_num) [()] [[()]] 0 0 []

/-- C10: with successful writes, `train` returns exactly the chronological
list of per-mini-batch losses — one entry per mini-batch across all epochs,
each equal to the summed squared per-channel, per-ray colour error of that
batch at the parameters current when it was processed — together with the
final parameters and scheduler state. -/
theorem C10_train_losses {S I ε : Type} (upd : S → NerfModel → Batch → NerfModel)
    (sch : S → S) (hn hf : ℝ) (nb : ℕ) (renderI : NerfModel → ℕ → I) (nI : ℕ)
    (epochs : List (List Batch)) (p0 : NerfModel) (s0 : S) :
    train upd sch (batchLoss hn hf nb) renderI
        (fun _ _ => (Except.ok () : Except ε Unit)) nI epochs p0 s0 [] =
      Except.ok ((runState upd sch epochs p0 s0).1, (runState upd sch epochs p0 s0).2,
        allLosses upd sch (batchLoss hn hf nb) epochs p0 s0) ∧
    (allLosses upd sch (batchLoss hn hf nb) epochs p0 s0).length =
      (epochs.map List.length).sum := by
  constructor
  · simpa using
      train_ok_eq upd sch (batchLoss hn hf nb) renderI nI epochs p0 s0 []
  · exact allLosses_length upd sch (batchLoss hn hf nb) epochs p0 s0

end Nerf
